import Mathlib

/-!
Verification development for the openvm memory subsystem and related chips.

The Lean definitions below are shallow embeddings of the Rust sources:
* `crates/vm/src/system/memory/online.rs` (`Memory`, `MemoryLogEntry`,
  `Memory::write`, `Memory::read`, `Memory::increment_timestamp_by`,
  `Memory::get`, `Memory::range_array`),
* `crates/vm/src/system/memory/tree/mod.rs` (`MemoryNode`, `hash`,
  `construct_uniform`, `from_memory`, `tree_from_memory`),
* `vm/src/rv32im/base_alu/core.rs` (`solve_alu` and its helpers),
* `extensions/rv32im/circuit/src/hintstore/core.rs`
  (`Rv32HintStoreCoreChip::execute_instruction`).

Modelling conventions:
* machine integers (`u32`, `usize`) are `Nat`; `u32` pointer arithmetic
  wraps, which is modelled by an explicit `% 2 ^ 32` (`addr32`);
* the `u32` timestamp is modelled as an unbounded `Nat` counter (its
  overflow is a checked-arithmetic panic, not program logic);
* a fatal assertion (`assert!` / `assert_eq!`) is modelled by returning
  `Except.error s` where `s` is the `Memory` state at the moment the
  assertion fires, so "fails before mutating" is expressible;
* the field `F : PrimeField32` is an arbitrary type with the two pieces
  of the trait the embedded code uses: the additive identity `ZERO` and
  `from_canonical_u32`.
-/

/-- Models Rust `usize::is_power_of_two` (extensionally: `n` has exactly one
set bit, i.e. `n = 2 ^ k` for some `k`); `isPow2 0 = false`. -/
def isPow2 (n : Nat) : Bool :=
  (List.range (n + 1)).any fun k => n == 2 ^ k

theorem isPow2_iff (n : Nat) : isPow2 n = true ↔ ∃ k, n = 2 ^ k := by
  unfold isPow2
  simp only [List.any_eq_true, List.mem_range, beq_iff_eq]
  constructor
  · rintro ⟨k, -, h⟩
    exact ⟨k, h⟩
  · rintro ⟨k, rfl⟩
    exact ⟨k, Nat.lt_succ_of_lt (Nat.lt_two_pow k), rfl⟩

theorem isPow2_false_of_not_pow (n : Nat) (h : ∀ k, n ≠ 2 ^ k) : isPow2 n = false := by
  cases hp : isPow2 n with
  | false => rfl
  | true =>
    obtain ⟨k, hk⟩ := (isPow2_iff n).mp hp
    exact absurd hk (h k)

theorem not_pow_of_isPow2_false (n : Nat) (h : isPow2 n = false) : ∀ k, n ≠ 2 ^ k := by
  intro k hk
  have := (isPow2_iff n).mpr ⟨k, hk⟩
  simp [h] at this

/-- The address actually accessed by `pointer + i as u32` in `online.rs`:
`usize` index `i` is truncated to 32 bits and the `u32` addition wraps. -/
def addr32 (pointer i : Nat) : Nat :=
  (pointer + i % 2 ^ 32) % 2 ^ 32

theorem addr32_inj (p i j : Nat) (hi : i < 2 ^ 32) (hj : j < 2 ^ 32)
    (h : addr32 p i = addr32 p j) : i = j := by
  unfold addr32 at h
  have h32 : (2 : Nat) ^ 32 = 4294967296 := by norm_num
  rw [h32] at h hi hj
  omega

theorem addr32_add (p j k : Nat) : addr32 (p + j) k = addr32 p (j + k) := by
  unfold addr32
  have h32 : (2 : Nat) ^ 32 = 4294967296 := by norm_num
  rw [h32]
  omega

/-- The fragment of the `PrimeField32` trait bound that the embedded code
uses: `FieldAlgebra::ZERO` and `PrimeField32::from_canonical_u32`. -/
class PrimeField32 (F : Type) extends Zero F where
  fromCanonicalU32 : Nat → F

/-- `MemoryLogEntry<T>` from `online.rs`. -/
inductive MemoryLogEntry (F : Type) where
  | read (address_space pointer len : Nat)
  | write (address_space pointer : Nat) (data : List F)
  | incrementTimestampBy (amount : Nat)
deriving DecidableEq

/-- `Memory<F>` from `online.rs`: a sparse map from
`(address_space, pointer)` to field values, the access log, and the
timestamp.  The `FxHashMap` is modelled as a function into `Option F`
(`none` = absent cell). -/
structure Memory (F : Type) where
  data : Nat × Nat → Option F
  log : List (MemoryLogEntry F)
  timestamp : Nat

/-- `INITIAL_TIMESTAMP` lives in `offline.rs`, outside the sources in scope.
Modelled from the spec: the timestamp "starts at a reserved initial value
+1"; the concrete reserved value (0) is irrelevant to every claim. -/
def INITIAL_TIMESTAMP : Nat := 0

/-- `Memory::new`. -/
def Memory.new (F : Type) : Memory F :=
  ⟨fun _ => none, [], INITIAL_TIMESTAMP + 1⟩

/-- `Memory::get`: pure lookup, `unwrap_or(ZERO)`. -/
def Memory.get [Zero F] (m : Memory F) (address_space pointer : Nat) : F :=
  (m.data (address_space, pointer)).getD 0

/-- Models a call `self.get(address_space, pointer)` through the shared
reference receiver: the receiver is handed back unchanged. -/
def Memory.getOp [Zero F] (m : Memory F) (address_space pointer : Nat) :
    F × Memory F :=
  (m.get address_space pointer, m)

/-- `Memory::range_array`: the `N` consecutive cells starting at `pointer`
(each address computed with wrapping `u32` arithmetic). -/
def Memory.rangeArray [Zero F] (m : Memory F) (address_space pointer N : Nat) :
    List F :=
  (List.range N).map fun i => m.get address_space (addr32 pointer i)

/-- The insertion loop of `Memory::write` (`array::from_fn` evaluates the
indices in order): returns the previous contents (`unwrap_or(ZERO)` per
cell) and the updated map.  `i` is the index of the next cell. -/
def writeCells [Zero F] (address_space pointer : Nat) :
    (Nat × Nat → Option F) → List F → Nat → List F × (Nat × Nat → Option F)
  | data, [], _ => ([], data)
  | data, v :: vs, i =>
    let a : Nat × Nat := (address_space, addr32 pointer i)
    let res := writeCells address_space pointer
      (fun x => if x = a then some v else data x) vs (i + 1)
    ((data a).getD 0 :: res.1, res.2)

/-- `Memory::write`: asserts the length is a power of two (the error carries
the state at the moment the assertion fires, i.e. the unmodified memory),
then writes the cells, appends one `Write` log entry and advances the
timestamp by 1.  Returns the `RecordId` (index of the new log entry) and
the previous contents of the window. -/
def Memory.write [Zero F] (m : Memory F) (address_space pointer : Nat)
    (values : List F) : Except (Memory F) ((Nat × List F) × Memory F) :=
  if isPow2 values.length then
    let res := writeCells address_space pointer m.data values 0
    let log := m.log ++ [MemoryLogEntry.write address_space pointer values]
    .ok ((log.length - 1, res.1), ⟨res.2, log, m.timestamp + 1⟩)
  else .error m

/-- The state after a successful `Memory::write` (the `.ok` branch). -/
def Memory.writeRes [Zero F] (m : Memory F) (address_space pointer : Nat)
    (values : List F) : Memory F :=
  ⟨(writeCells address_space pointer m.data values 0).2,
    m.log ++ [MemoryLogEntry.write address_space pointer values],
    m.timestamp + 1⟩

/-- `Memory::read`: asserts the length is a power of two, pushes one `Read`
log entry, then either returns `[from_canonical_u32(pointer); N]` for
address space 0 (asserting `N == 1` — this second assertion fires after the
log push, which the error state records), or the stored window; finally the
timestamp advances by 1. -/
def Memory.read [PrimeField32 F] (m : Memory F) (address_space pointer N : Nat) :
    Except (Memory F) ((Nat × List F) × Memory F) :=
  if isPow2 N then
    let log := m.log ++ [MemoryLogEntry.read address_space pointer N]
    if address_space = 0 then
      if N = 1 then
        .ok ((log.length - 1,
              List.replicate N (PrimeField32.fromCanonicalU32 pointer)),
             ⟨m.data, log, m.timestamp + 1⟩)
      else .error ⟨m.data, log, m.timestamp⟩
    else
      .ok ((log.length - 1, m.rangeArray address_space pointer N),
           ⟨m.data, log, m.timestamp + 1⟩)
  else .error m

/-- The state after a successful `Memory::read`. -/
def Memory.readRes (m : Memory F) (address_space pointer N : Nat) : Memory F :=
  ⟨m.data, m.log ++ [MemoryLogEntry.read address_space pointer N],
    m.timestamp + 1⟩

/-- `Memory::increment_timestamp_by`. -/
def Memory.incrementTimestampBy (m : Memory F) (amount : Nat) : Memory F :=
  ⟨m.data, m.log ++ [MemoryLogEntry.incrementTimestampBy amount],
    m.timestamp + amount⟩

/-- `true` iff an `Except` value is `ok` (i.e. the call did not hit a fatal
assertion). -/
def isOkE : Except ε α → Bool
  | .ok _ => true
  | .error _ => false

/-- One client-visible operation on a `Memory`. -/
inductive MemOp (F : Type) where
  | read (address_space pointer N : Nat)
  | write (address_space pointer : Nat) (values : List F)
  | incr (amount : Nat)

/-- `true` for the operations that are memory accesses (read/write), `false`
for explicit timestamp increments. -/
def MemOp.isAccess : MemOp F → Bool
  | .incr _ => false
  | _ => true

/-- Run one operation; `none` models a fatal assertion aborting execution. -/
def applyOp [PrimeField32 F] (m : Memory F) : MemOp F → Option (Memory F)
  | .read s p N => (m.read s p N).toOption.map Prod.snd
  | .write s p v => (m.write s p v).toOption.map Prod.snd
  | .incr d => some (m.incrementTimestampBy d)

/-- Run a sequence of operations. -/
def applyOps [PrimeField32 F] (m : Memory F) : List (MemOp F) → Option (Memory F)
  | [] => some m
  | op :: ops => (applyOp m op).bind fun m1 => applyOps m1 ops

/-- The value a single operation leaves at address `(s, p)`: for a write
covering `(s, p)` (with wrapping address arithmetic, the last covering
index winning, as in the sequential insertion loop), that value; otherwise
`none`. -/
def opWriteAt [Zero F] (s p : Nat) : MemOp F → Option F
  | .write s' p' v =>
    (List.range v.length).foldl
      (fun acc k => if (s, p) = (s', addr32 p' k) then some (v.getD k 0) else acc)
      none
  | _ => none

/-- The last value written at `(s, p)` by a sequence of operations (later
operations win), `none` if no write ever covered `(s, p)`. -/
def lastWritten [Zero F] (s p : Nat) (ops : List (MemOp F)) : Option F :=
  ops.foldl
    (fun acc op => match opWriteAt s p op with
      | some x => some x
      | none => acc)
    none

/-- The expected result of reading a whole window of length `v.length` at
`p` after writing `v` at `p` and then `u` at `p + j`: the new values at the
overwritten offsets `[j, j + u.length)` and the old values elsewhere. -/
def mixWindow [Zero F] (v u : List F) (j : Nat) : List F :=
  (List.range v.length).map fun i =>
    if j ≤ i ∧ i < j + u.length then u.getD (i - j) 0 else v.getD i 0

/-- The `Hasher<CHUNK, F>` trait from `arch/hasher`: a chunk hash and a
2-to-1 compression (chunks are modelled as lists of length `CHUNK`). -/
structure Hasher (F : Type) where
  hash : List F → List F
  compress : List F → List F → List F

/-- `MemoryNode<CHUNK, F>` from `tree/mod.rs`. -/
inductive MemoryNode (F : Type) where
  | leaf (values : List F)
  | nonLeaf (hash : List F) (left right : MemoryNode F)

/-- `MemoryNode::hash`: the stored summary of a node. -/
def MemoryNode.hash : MemoryNode F → List F
  | .leaf values => values
  | .nonLeaf h _ _ => h

/-- `MemoryNode::construct_uniform`: a tree of height `height` whose leaves
all hold `leafValue`, each level compressing a child with itself (the child
is shared between both branches; sharing is not observable here). -/
def MemoryNode.constructUniform (height : Nat) (leafValue : List F)
    (hasher : Hasher F) : MemoryNode F :=
  match height with
  | 0 => .leaf leafValue
  | h + 1 =>
    let child := MemoryNode.constructUniform h leafValue hasher
    .nonLeaf (hasher.compress child.hash child.hash) child child

/-- `BTreeMap::get` on the chunk-indexed partition, modelled as an
association list keyed by chunk index. -/
def lookupA (mem : List (Nat × α)) (k : Nat) : Option α :=
  match mem with
  | [] => none
  | (k', v) :: rest => if k' = k then some v else lookupA rest k

/-- `memory.range(from..from + (1 << height)).next().is_none()`: no populated
chunk index falls inside the half-open range `[lo, lo + size)`. -/
def rangeEmpty (mem : List (Nat × α)) (lo size : Nat) : Bool :=
  mem.all fun kv => decide (¬ (lo ≤ kv.1 ∧ kv.1 < lo + size))

/-- `MemoryNode::from_memory`: a leaf hashes its (zero-defaulted) chunk; a
range with no populated chunk becomes the uniform zero tree; otherwise the
range splits at its midpoint.  `chunk` is the `CHUNK` const generic. -/
def MemoryNode.fromMemory [Zero F] (mem : List (Nat × List F)) :
    Nat → Nat → Hasher F → Nat → MemoryNode F
  | 0, lo, hasher, chunk =>
    .leaf (hasher.hash ((lookupA mem lo).getD (List.replicate chunk 0)))
  | height + 1, lo, hasher, chunk =>
    if rangeEmpty mem lo (2 ^ (height + 1)) then
      MemoryNode.constructUniform (height + 1)
        (hasher.hash (List.replicate chunk 0)) hasher
    else
      let l := MemoryNode.fromMemory mem height lo hasher chunk
      let r := MemoryNode.fromMemory mem height (lo + 2 ^ height) hasher chunk
      .nonLeaf (hasher.compress l.hash r.hash) l r

/-- Replace the binding for `k` (or append it) in an association list;
models mutating the `BTreeMap` entry. -/
def insertA (mem : List (Nat × α)) (k : Nat) (v : α) : List (Nat × α) :=
  match mem with
  | [] => [(k, v)]
  | (k', v') :: rest =>
    if k' = k then (k, v) :: rest else (k', v') :: insertA rest k v

/-- The partition loop of `MemoryNode::tree_from_memory`: each written cell
`((address_space, pointer), value)` lands in the chunk labelled
`(address_space, pointer / chunk)` — mapped to a global index by the
geometry's `label_to_index` (`labelToIndex`, an external parameter here:
`MemoryDimensions` lives in `controller/dimensions.rs`, outside the sources
in scope) — at offset `pointer % chunk`. -/
def buildPartition [Zero F] (labelToIndex : Nat × Nat → Nat) (chunk : Nat)
    (image : List ((Nat × Nat) × F)) : List (Nat × List F) :=
  image.foldl
    (fun part entry =>
      let idx := labelToIndex (entry.1.1, entry.1.2 / chunk)
      let old := (lookupA part idx).getD (List.replicate chunk 0)
      insertA part idx (old.set (entry.1.2 % chunk) entry.2))
    []

/-- `MemoryNode::tree_from_memory`: partition the flat image into chunks,
then build the tree over the full index range `[0, 2 ^ overallHeight)`. -/
def MemoryNode.treeFromMemory [Zero F] (labelToIndex : Nat × Nat → Nat)
    (overallHeight chunk : Nat) (image : List ((Nat × Nat) × F))
    (hasher : Hasher F) : MemoryNode F :=
  MemoryNode.fromMemory (buildPartition labelToIndex chunk image)
    overallHeight 0 hasher chunk

/-- `AluOpcode` from `base_alu`. -/
inductive AluOpcode where
  | ADD | SUB | XOR | OR | AND
deriving DecidableEq

/-- The loop body of `solve_add`, limb by limb: each entry is
`(z[i], carry[i])` where `z[i] = (x[i] + y[i] + carry[i-1]) mod 2^LIMB_BITS`
and `carry[i]` is the shifted-out part.  `b` is `LIMB_BITS`, the third
argument the incoming carry. -/
def addLoop (b : Nat) : List Nat → List Nat → Nat → List (Nat × Nat)
  | x :: xs, y :: ys, c =>
    let s := x + y + c
    (s % 2 ^ b, s / 2 ^ b) :: addLoop b xs ys (s / 2 ^ b)
  | _, _, _ => []

/-- The loop body of `solve_subtract`: each entry is `(z[i], borrow[i])`. -/
def subLoop (b : Nat) : List Nat → List Nat → Nat → List (Nat × Nat)
  | x :: xs, y :: ys, c =>
    let rhs := y + c
    if rhs ≤ x then (x - rhs, 0) :: subLoop b xs ys 0
    else (x + 2 ^ b - rhs, 1) :: subLoop b xs ys 1
  | _, _, _ => []

/-- `solve_add::<NUM_LIMBS, LIMB_BITS>` (the `z` array). -/
def solve_add (b : Nat) (x y : List Nat) : List Nat :=
  (addLoop b x y 0).map Prod.fst

/-- The carry array of `solve_add`. -/
def addCarries (b : Nat) (x y : List Nat) : List Nat :=
  (addLoop b x y 0).map Prod.snd

/-- `solve_subtract::<NUM_LIMBS, LIMB_BITS>` (the `z` array). -/
def solve_subtract (b : Nat) (x y : List Nat) : List Nat :=
  (subLoop b x y 0).map Prod.fst

/-- The borrow array of `solve_subtract` (the `carry` array in the source). -/
def subBorrows (b : Nat) (x y : List Nat) : List Nat :=
  (subLoop b x y 0).map Prod.snd

/-- `solve_xor` (limbwise `^`). -/
def solve_xor (x y : List Nat) : List Nat :=
  List.zipWith (fun a c => a ^^^ c) x y

/-- `solve_or` (limbwise `|`). -/
def solve_or (x y : List Nat) : List Nat :=
  List.zipWith (fun a c => a ||| c) x y

/-- `solve_and` (limbwise `&`). -/
def solve_and (x y : List Nat) : List Nat :=
  List.zipWith (fun a c => a &&& c) x y

/-- `solve_alu::<NUM_LIMBS, LIMB_BITS>` dispatching on the opcode.
`NUM_LIMBS` is implicit in the list lengths, `b` is `LIMB_BITS`. -/
def solve_alu (b : Nat) (opcode : AluOpcode) (x y : List Nat) : List Nat :=
  match opcode with
  | .ADD => solve_add b x y
  | .SUB => solve_subtract b x y
  | .XOR => solve_xor x y
  | .OR => solve_or x y
  | .AND => solve_and x y

/-- The value of a little-endian limb array with `b`-bit limbs. -/
def limbsToNat (b : Nat) : List Nat → Nat
  | [] => 0
  | l :: ls => l + 2 ^ b * limbsToNat b ls

/-- The execution-error variant the hint-store chip reports on hint-stream
underflow; `ExecutionError` itself is declared outside the sources in scope,
but the variant shape `HintOutOfBounds { pc }` is visible at the
construction site in `hintstore/core.rs`. -/
inductive ExecutionError where
  | hintOutOfBounds (pc : Nat)
deriving DecidableEq

/-- `VecDeque::pop_front`. -/
def popFront : List F → Option (F × List F)
  | [] => none
  | x :: xs => some (x, xs)

/-- `array::from_fn(|_| hint_stream.pop_front().unwrap())`: pop `n` elements
off the front; `none` models the `unwrap` panic on an empty queue. -/
def popN : Nat → List F → Option (List F × List F)
  | 0, s => some ([], s)
  | n + 1, s =>
    (popFront s).bind fun xs =>
      (popN n xs.2).map fun rest => (xs.1 :: rest.1, rest.2)

/-- `Rv32HintStoreCoreChip::execute_instruction`, specialised to the data it
acts on: the hint stream (FIFO of field elements) and the program counter.
If fewer than `numLimbs` (= `RV32_REGISTER_NUM_LIMBS`) elements remain it
returns `Err(ExecutionError::HintOutOfBounds { pc: from_pc })`; otherwise it
pops `numLimbs` elements, which become both the write data and the record.
The outer `Option` models a panic (`unwrap`), the bitwise-lookup side
requests are not modelled. -/
def Rv32HintStoreCore.execute_instruction (hintStream : List F)
    (from_pc numLimbs : Nat) :
    Option (Except ExecutionError (List F × List F)) :=
  if hintStream.length < numLimbs then
    some (.error (.hintOutOfBounds from_pc))
  else
    (popN numLimbs hintStream).map fun dr => .ok (dr.1, dr.2)

/-- The BabyBear field `F = Z/2013265921`, the `PrimeField32` instance the
repository instantiates `Memory` with in its tests. -/
abbrev BabyBear := ZMod 2013265921

instance : PrimeField32 BabyBear where
  fromCanonicalU32 n := (n : BabyBear)

/-! ### List and `writeCells` helper lemmas -/

theorem map_getD_range {β : Type _} (l : List β) (d : β) :
    (List.range l.length).map (fun i => l.getD i d) = l := by
  induction l with
  | nil => simp
  | cons x l ih =>
    rw [List.length_cons, List.range_succ_eq_map, List.map_cons, List.map_map]
    refine congrArg₂ List.cons rfl ?_
    have hmaps : List.map ((fun i => (x :: l).getD i d) ∘ Nat.succ) (List.range l.length)
        = List.map (fun i => l.getD i d) (List.range l.length) :=
      List.map_congr_left fun i _ => by simp [Function.comp]
    rw [hmaps, ih]

theorem map_getD_range_take {β : Type _} (l : List β) (d : β) (N : Nat)
    (hN : N ≤ l.length) :
    (List.range N).map (fun i => l.getD i d) = l.take N := by
  have hlen : (l.take N).length = N := by
    simp [List.length_take]
    omega
  conv_rhs => rw [← map_getD_range (l.take N) d]
  rw [hlen]
  refine List.map_congr_left fun i hi => ?_
  rw [List.mem_range] at hi
  have h1 : i < l.length := Nat.lt_of_lt_of_le hi hN
  simp [List.getD_eq_getElem?_getD, List.getElem?_take, hi, h1]

theorem writeCells_snd_miss [Zero F] (s p : Nat) (vs : List F) :
    ∀ (data : Nat × Nat → Option F) (i : Nat) (q : Nat × Nat),
    (∀ k, k < vs.length → q ≠ (s, addr32 p (i + k))) →
    (writeCells s p data vs i).2 q = data q := by
  induction vs with
  | nil => intro data i q _; rfl
  | cons v vs ih =>
    intro data i q hq
    simp only [writeCells]
    rw [ih _ (i + 1) q ?_]
    · have h0 : q ≠ (s, addr32 p i) := by
        have := hq 0 (by simp)
        simpa using this
      simp [h0]
    · intro k hk
      have hk' : k + 1 < (v :: vs).length := by simp; omega
      have := hq (k + 1) hk'
      have harith : i + (k + 1) = i + 1 + k := by omega
      rwa [harith] at this

theorem writeCells_snd_hit [Zero F] (s p : Nat) (vs : List F) :
    ∀ (data : Nat × Nat → Option F) (i k : Nat), k < vs.length →
    i + vs.length ≤ 2 ^ 32 →
    (writeCells s p data vs i).2 (s, addr32 p (i + k)) = some (vs.getD k 0) := by
  induction vs with
  | nil => intro data i k hk _; simp at hk
  | cons v vs ih =>
    intro data i k hk hlen
    simp only [List.length_cons] at hlen
    simp only [writeCells]
    cases k with
    | zero =>
      rw [writeCells_snd_miss s p vs _ (i + 1) _ ?_]
      · simp
      · intro k' hk' heq
        have hne : addr32 p (i + 0) = addr32 p (i + 1 + k') := by
          have := congrArg Prod.snd heq
          simpa using this
        have := addr32_inj p (i + 0) (i + 1 + k') (by omega) (by omega) hne
        omega
    | succ k' =>
      have harith : i + (k' + 1) = i + 1 + k' := by omega
      rw [harith]
      rw [ih _ (i + 1) k' (by simpa using hk) (by omega)]
      simp

theorem writeCells_fst [Zero F] (s p : Nat) (vs : List F) :
    ∀ (data : Nat × Nat → Option F) (i : Nat), i + vs.length ≤ 2 ^ 32 →
    (writeCells s p data vs i).1
      = (List.range vs.length).map fun k => (data (s, addr32 p (i + k))).getD 0 := by
  induction vs with
  | nil => intro data i _; simp [writeCells]
  | cons v vs ih =>
    intro data i hlen
    simp only [List.length_cons] at hlen
    simp only [writeCells, List.length_cons]
    rw [List.range_succ_eq_map, List.map_cons, List.map_map]
    refine congrArg₂ List.cons (by simp) ?_
    rw [ih _ (i + 1) (by omega)]
    refine List.map_congr_left fun k hk => ?_
    rw [List.mem_range] at hk
    have hfalse : addr32 p (i + 1 + k) ≠ addr32 p i := by
      intro h
      have := addr32_inj p (i + 1 + k) i (by omega) (by omega) h
      omega
    have harith : i + Nat.succ k = i + 1 + k := by omega
    simp [Function.comp, harith, Prod.mk.injEq, hfalse]

theorem writeCells_snd_foldl [Zero F] (s p : Nat) (vs : List F) :
    ∀ (data : Nat × Nat → Option F) (i : Nat) (q : Nat × Nat),
    (writeCells s p data vs i).2 q
      = (List.range vs.length).foldl
          (fun acc k =>
            if q = (s, addr32 p (i + k)) then some (vs.getD k 0) else acc)
          (data q) := by
  induction vs with
  | nil => intro data i q; simp [writeCells]
  | cons v vs ih =>
    intro data i q
    simp only [writeCells, List.length_cons]
    rw [ih _ (i + 1) q]
    rw [List.range_succ_eq_map, List.foldl_cons, List.foldl_map]
    have hstart :
        (if q = (s, addr32 p (i + 0)) then some ((v :: vs).getD 0 0) else data q)
          = if q = (s, addr32 p i) then some v else data q := by
      simp
    rw [hstart]
    have hfuns :
        (fun (acc : Option F) k =>
          if q = (s, addr32 p (i + 1 + k)) then some (vs.getD k 0) else acc)
        = fun (acc : Option F) k =>
            if q = (s, addr32 p (i + Nat.succ k))
            then some ((v :: vs).getD (Nat.succ k) 0) else acc := by
      funext acc k
      have harith : i + Nat.succ k = i + 1 + k := by omega
      simp [harith]
    rw [hfuns]

theorem foldl_override {α β : Type _} (f : Option β → α → Option β)
    (hnone : ∀ a, f none a = none → ∀ acc, f acc a = acc)
    (hsome : ∀ a x, f none a = some x → ∀ acc, f acc a = some x) :
    ∀ (l : List α) (a : Option β),
      l.foldl f a = match l.foldl f none with | some x => some x | none => a := by
  intro l
  induction l with
  | nil => intro a; simp
  | cons e l ih =>
    intro a
    simp only [List.foldl_cons]
    rw [ih (f a e), ih (f none e)]
    cases hfe : l.foldl f none with
    | some x => simp
    | none =>
      simp only
      cases hne : f none e with
      | none => rw [hnone e hne a]
      | some x => rw [hsome e x hne a]

/-! ### Characterisations of `Memory::write` / `Memory::read` -/

theorem Memory.write_ok [Zero F] (m : Memory F) (s p : Nat) (v : List F)
    (hv : isPow2 v.length = true) :
    m.write s p v
      = .ok ((m.log.length, (writeCells s p m.data v 0).1), m.writeRes s p v) := by
  unfold Memory.write Memory.writeRes
  simp [hv]

theorem Memory.write_err [Zero F] (m : Memory F) (s p : Nat) (v : List F)
    (hv : isPow2 v.length = false) :
    m.write s p v = .error m := by
  unfold Memory.write
  simp [hv]

theorem Memory.write_prev [Zero F] (m : Memory F) (s p : Nat) (v : List F)
    (hlen : v.length ≤ 2 ^ 32) :
    (writeCells s p m.data v 0).1 = m.rangeArray s p v.length := by
  rw [writeCells_fst s p v m.data 0 (by omega)]
  unfold Memory.rangeArray Memory.get
  exact List.map_congr_left fun k _ => by simp

theorem Memory.read_ok_nonzero [PrimeField32 F] (m : Memory F) (s p N : Nat)
    (hs : s ≠ 0) (hN : isPow2 N = true) :
    m.read s p N = .ok ((m.log.length, m.rangeArray s p N), m.readRes s p N) := by
  unfold Memory.read Memory.readRes
  simp [hN, hs]

theorem Memory.read_ok_zero [PrimeField32 F] (m : Memory F) (p : Nat) :
    m.read 0 p 1
      = .ok ((m.log.length, [PrimeField32.fromCanonicalU32 p]), m.readRes 0 p 1) := by
  unfold Memory.read Memory.readRes
  simp [show isPow2 1 = true from rfl]

theorem Memory.read_err_zero [PrimeField32 F] (m : Memory F) (p N : Nat)
    (hN : isPow2 N = true) (hN1 : N ≠ 1) :
    m.read 0 p N
      = .error ⟨m.data, m.log ++ [MemoryLogEntry.read 0 p N], m.timestamp⟩ := by
  unfold Memory.read
  simp [hN, hN1]

theorem Memory.read_err_notpow2 [PrimeField32 F] (m : Memory F) (s p N : Nat)
    (hN : isPow2 N = false) :
    m.read s p N = .error m := by
  unfold Memory.read
  simp [hN]

theorem Memory.read_ok_shape [PrimeField32 F] {m : Memory F} {s p N : Nat}
    {r : (Nat × List F) × Memory F} (h : m.read s p N = .ok r) :
    r.2 = m.readRes s p N := by
  unfold Memory.read at h
  unfold Memory.readRes
  split at h
  · split at h
    · split at h
      · simp only [Except.ok.injEq] at h
        rw [← h]
      · simp at h
    · simp only [Except.ok.injEq] at h
      rw [← h]
  · simp at h

theorem Memory.write_ok_shape [Zero F] {m : Memory F} {s p : Nat} {v : List F}
    {r : (Nat × List F) × Memory F} (h : m.write s p v = .ok r) :
    r.2 = m.writeRes s p v := by
  unfold Memory.write at h
  unfold Memory.writeRes
  split at h
  · simp only [Except.ok.injEq] at h
    rw [← h]
  · simp at h

theorem Memory.writeRes_data_hit [Zero F] (m : Memory F) (s p : Nat) (v : List F)
    (hlen : v.length ≤ 2 ^ 32) (i : Nat) (hi : i < v.length) :
    (m.writeRes s p v).data (s, addr32 p i) = some (v.getD i 0) := by
  unfold Memory.writeRes
  have := writeCells_snd_hit s p v m.data 0 i hi (by omega)
  simpa using this

theorem Memory.writeRes_data_miss [Zero F] (m : Memory F) (s p : Nat) (v : List F)
    (q : Nat × Nat) (hq : ∀ k, k < v.length → q ≠ (s, addr32 p k)) :
    (m.writeRes s p v).data q = m.data q := by
  unfold Memory.writeRes
  have := writeCells_snd_miss s p v m.data 0 q (fun k hk => by simpa using hq k hk)
  simpa using this

theorem map_zero_range {β : Type _} (z : β) (N : Nat) :
    (List.range N).map (fun _ => z) = List.replicate N z := by
  induction N with
  | zero => rfl
  | succ n ih => rw [List.range_succ, List.map_append, ih, List.replicate_succ']; rfl

theorem Memory.rangeArray_zeros [Zero F] (m : Memory F) (s p N : Nat)
    (hnone : ∀ i, i < N → m.data (s, addr32 p i) = none) :
    m.rangeArray s p N = List.replicate N (0 : F) := by
  unfold Memory.rangeArray Memory.get
  have h1 : ∀ i ∈ List.range N, (m.data (s, addr32 p i)).getD (0 : F) = 0 :=
    fun i hi => by rw [hnone i (List.mem_range.mp hi)]; rfl
  rw [List.map_congr_left h1, map_zero_range]

theorem Memory.rangeArray_writeRes_take [Zero F] (m : Memory F) (s p : Nat)
    (v : List F) (hlen : v.length ≤ 2 ^ 32) (N : Nat) (hN : N ≤ v.length) :
    (m.writeRes s p v).rangeArray s p N = v.take N := by
  unfold Memory.rangeArray Memory.get
  have h1 : ∀ i ∈ List.range N,
      ((m.writeRes s p v).data (s, addr32 p i)).getD (0 : F) = v.getD i 0 :=
    fun i hi => by
      rw [Memory.writeRes_data_hit m s p v hlen i
        (Nat.lt_of_lt_of_le (List.mem_range.mp hi) hN)]
      rfl
  rw [List.map_congr_left h1, map_getD_range_take v 0 N hN]

theorem Memory.rangeArray_writeRes [Zero F] (m : Memory F) (s p : Nat)
    (v : List F) (hlen : v.length ≤ 2 ^ 32) :
    (m.writeRes s p v).rangeArray s p v.length = v := by
  rw [Memory.rangeArray_writeRes_take m s p v hlen v.length (Nat.le_refl _)]
  exact List.take_length v

theorem Memory.rangeArray_two_writes [Zero F] (m : Memory F) (s p j : Nat)
    (v u : List F) (hvN : v.length ≤ 2 ^ 32) (hju : j + u.length ≤ v.length) :
    ((m.writeRes s p v).writeRes s (p + j) u).rangeArray s p v.length
      = mixWindow v u j := by
  unfold Memory.rangeArray Memory.get mixWindow
  refine List.map_congr_left fun i hi => ?_
  rw [List.mem_range] at hi
  by_cases hcase : j ≤ i ∧ i < j + u.length
  · have hk : i - j < u.length := by omega
    have haddr : addr32 p i = addr32 (p + j) (i - j) := by
      rw [addr32_add]
      refine congrArg (addr32 p) ?_
      omega
    rw [haddr,
      Memory.writeRes_data_hit (m.writeRes s p v) s (p + j) u (by omega) (i - j) hk,
      if_pos hcase]
    rfl
  · have hmiss : ∀ k, k < u.length →
        ((s, addr32 p i) : Nat × Nat) ≠ (s, addr32 (p + j) k) := by
      intro k hk heq
      have h2 : addr32 p i = addr32 (p + j) k := by
        have := congrArg Prod.snd heq
        simpa using this
      rw [addr32_add] at h2
      have := addr32_inj p i (j + k) (by omega) (by omega) h2
      omega
    rw [Memory.writeRes_data_miss (m.writeRes s p v) s (p + j) u _ hmiss,
      Memory.writeRes_data_hit m s p v hvN i hi, if_neg hcase]
    rfl

/-! ### `applyOp` characterisations -/

theorem applyOp_read_some [PrimeField32 F] {m m' : Memory F} {s p N : Nat}
    (h : applyOp m (MemOp.read s p N) = some m') : m' = m.readRes s p N := by
  simp only [applyOp] at h
  cases hr : m.read s p N with
  | error e => rw [hr] at h; simp [Except.toOption] at h
  | ok r =>
    rw [hr] at h
    simp only [Except.toOption, Option.map_some', Option.some.injEq] at h
    rw [← h, Memory.read_ok_shape hr]

theorem applyOp_write_some [PrimeField32 F] {m m' : Memory F} {s p : Nat}
    {v : List F} (h : applyOp m (MemOp.write s p v) = some m') :
    m' = m.writeRes s p v := by
  simp only [applyOp] at h
  cases hr : m.write s p v with
  | error e => rw [hr] at h; simp [Except.toOption] at h
  | ok r =>
    rw [hr] at h
    simp only [Except.toOption, Option.map_some', Option.some.injEq] at h
    rw [← h, Memory.write_ok_shape hr]

theorem applyOp_incr_some [PrimeField32 F] {m m' : Memory F} {d : Nat}
    (h : applyOp m (MemOp.incr d) = some m') : m' = m.incrementTimestampBy d := by
  simp only [applyOp, Option.some.injEq] at h
  exact h.symm

theorem applyOp_timestamp_le [PrimeField32 F] {m m' : Memory F} {op : MemOp F}
    (h : applyOp m op = some m') : m.timestamp ≤ m'.timestamp := by
  cases op with
  | read s p N => rw [applyOp_read_some h]; simp [Memory.readRes]
  | write s p v => rw [applyOp_write_some h]; simp [Memory.writeRes]
  | incr d => rw [applyOp_incr_some h]; simp [Memory.incrementTimestampBy]

theorem applyOp_access_timestamp [PrimeField32 F] {m m' : Memory F} {op : MemOp F}
    (hacc : MemOp.isAccess op = true) (h : applyOp m op = some m') :
    m'.timestamp = m.timestamp + 1 := by
  cases op with
  | read s p N => rw [applyOp_read_some h]; rfl
  | write s p v => rw [applyOp_write_some h]; rfl
  | incr d => simp [MemOp.isAccess] at hacc

theorem applyOps_timestamp_mono [PrimeField32 F] (ops : List (MemOp F)) :
    ∀ (m m' : Memory F), applyOps m ops = some m' →
      m.timestamp ≤ m'.timestamp := by
  induction ops with
  | nil =>
    intro m m' h
    simp only [applyOps, Option.some.injEq] at h
    rw [h]
  | cons op ops ih =>
    intro m m' h
    simp only [applyOps] at h
    cases hop : applyOp m op with
    | none => rw [hop] at h; simp at h
    | some m1 =>
      rw [hop] at h
      simp only [Option.some_bind] at h
      exact Nat.le_trans (applyOp_timestamp_le hop) (ih m1 m' h)

theorem applyOps_access_timestamp [PrimeField32 F] (ops : List (MemOp F)) :
    ∀ (m m' : Memory F), (∀ op ∈ ops, MemOp.isAccess op = true) →
      applyOps m ops = some m' →
      m'.timestamp = m.timestamp + ops.length := by
  induction ops with
  | nil =>
    intro m m' _ h
    simp only [applyOps, Option.some.injEq] at h
    rw [h]
    rfl
  | cons op ops ih =>
    intro m m' hacc h
    simp only [applyOps] at h
    cases hop : applyOp m op with
    | none => rw [hop] at h; simp at h
    | some m1 =>
      rw [hop] at h
      simp only [Option.some_bind] at h
      have h1 : m1.timestamp = m.timestamp + 1 :=
        applyOp_access_timestamp (hacc op (by simp)) hop
      have h2 := ih m1 m' (fun o ho => hacc o (by simp [ho])) h
      rw [h2, h1]
      simp only [List.length_cons]
      omega

/-! ### Tracking the last written value (for `Memory::get`) -/

theorem applyOp_data_at [PrimeField32 F] {m m' : Memory F} (op : MemOp F)
    (h : applyOp m op = some m') (s p : Nat) :
    m'.data (s, p)
      = match opWriteAt s p op with
        | some x => some x
        | none => m.data (s, p) := by
  cases op with
  | read s' p' N =>
    rw [applyOp_read_some h]
    rfl
  | incr d =>
    rw [applyOp_incr_some h]
    rfl
  | write s' p' v =>
    rw [applyOp_write_some h]
    unfold Memory.writeRes opWriteAt
    simp only
    rw [writeCells_snd_foldl s' p' v m.data 0 (s, p)]
    have hz :
        (fun (acc : Option F) k =>
          if (s, p) = (s', addr32 p' (0 + k)) then some (v.getD k 0) else acc)
        = fun (acc : Option F) k =>
            if (s, p) = (s', addr32 p' k) then some (v.getD k 0) else acc := by
      funext acc k
      rw [Nat.zero_add]
    rw [hz]
    exact foldl_override _
      (fun a ha acc => by
        by_cases hc : (s, p) = ((s', addr32 p' a) : Nat × Nat)
        · simp [hc] at ha
        · simp [hc])
      (fun a x hx acc => by
        by_cases hc : (s, p) = ((s', addr32 p' a) : Nat × Nat)
        · simp [hc] at hx ⊢
          exact hx
        · simp [hc] at hx)
      (List.range v.length) (m.data (s, p))

theorem applyOps_lastWritten [PrimeField32 F] (ops : List (MemOp F)) :
    ∀ (m m' : Memory F), applyOps m ops = some m' → ∀ s p : Nat,
      m'.data (s, p)
        = match lastWritten s p ops with
          | some x => some x
          | none => m.data (s, p) := by
  induction ops with
  | nil =>
    intro m m' h s p
    simp only [applyOps, Option.some.injEq] at h
    rw [← h]
    rfl
  | cons op ops ih =>
    intro m m' h s p
    simp only [applyOps] at h
    cases hop : applyOp m op with
    | none => rw [hop] at h; simp at h
    | some m1 =>
      rw [hop] at h
      simp only [Option.some_bind] at h
      have h1 := ih m1 m' h s p
      have h2 := applyOp_data_at op hop s p
      have h3 : lastWritten s p (op :: ops)
          = match lastWritten s p ops with
            | some x => some x
            | none => opWriteAt s p op := by
        unfold lastWritten
        rw [List.foldl_cons]
        have h4 := foldl_override
          (fun (acc : Option F) o =>
            match opWriteAt s p o with
            | some x => some x
            | none => acc)
          (fun a ha acc => by
            cases hw : opWriteAt s p a with
            | some x => simp [hw] at ha
            | none => simp [hw])
          (fun a x hx acc => by
            cases hw : opWriteAt s p a with
            | some y => simp [hw] at hx ⊢; exact hx
            | none => simp [hw] at hx)
          ops
          (match opWriteAt s p op with
            | some x => some x
            | none => none)
        rw [h4]
        cases hlw : lastWritten s p ops with
        | some x =>
          unfold lastWritten at hlw
          rw [hlw]
        | none =>
          unfold lastWritten at hlw
          rw [hlw]
          cases hw : opWriteAt s p op <;> simp
      rw [h3] at *
      cases hlw : lastWritten s p ops with
      | some x =>
        rw [hlw] at h1
        simp only
        exact h1
      | none =>
        rw [hlw] at h1
        simp only
        rw [h1, h2]

/-! ### Merkle tree lemmas -/

theorem lookupA_none {α : Type _} (mem : List (Nat × α)) (lo : Nat)
    (h : ∀ kv ∈ mem, kv.1 ≠ lo) : lookupA mem lo = none := by
  induction mem with
  | nil => rfl
  | cons kv rest ih =>
    obtain ⟨k, v⟩ := kv
    unfold lookupA
    rw [if_neg (h (k, v) (by simp))]
    exact ih fun kv hkv => h kv (by simp [hkv])

theorem rangeEmpty_iff {α : Type _} (mem : List (Nat × α)) (lo size : Nat) :
    rangeEmpty mem lo size = true
      ↔ ∀ kv ∈ mem, ¬ (lo ≤ kv.1 ∧ kv.1 < lo + size) := by
  unfold rangeEmpty
  simp only [List.all_eq_true, decide_eq_true_eq]

theorem fromMemory_uniform [Zero F] (mem : List (Nat × List F)) (h lo : Nat)
    (hasher : Hasher F) (chunk : Nat)
    (hemp : ∀ kv ∈ mem, ¬ (lo ≤ kv.1 ∧ kv.1 < lo + 2 ^ h)) :
    MemoryNode.fromMemory mem h lo hasher chunk
      = MemoryNode.constructUniform h
          (hasher.hash (List.replicate chunk 0)) hasher := by
  cases h with
  | zero =>
    have hnone : lookupA mem lo = none := by
      apply lookupA_none
      intro kv hkv
      have := hemp kv hkv
      simp only [Nat.pow_zero] at this
      omega
    unfold MemoryNode.fromMemory MemoryNode.constructUniform
    rw [hnone]
    rfl
  | succ h' =>
    unfold MemoryNode.fromMemory
    rw [if_pos ((rangeEmpty_iff mem lo (2 ^ (h' + 1))).mpr hemp)]

/-! ### ALU lemmas -/

theorem limb_sum_bound (B M z t : Nat) (_hB : 0 < B) (hM : 0 < M)
    (hz : z < B) (ht : t < M) : z + B * t < B * M := by
  have h3 : B * t ≤ B * (M - 1) := Nat.mul_le_mul_left B (by omega)
  have h4 : B * (M - 1) + B = B * M := by
    have h5 : B * (M - 1) + B * 1 = B * (M - 1 + 1) := (Nat.mul_add B (M - 1) 1).symm
    have h6 : M - 1 + 1 = M := by omega
    rw [h6] at h5
    simpa using h5
  linarith

theorem mod_split (B M r t : Nat) (hB : 0 < B) (hM : 0 < M) (hr : r < B) :
    (r + B * t) % (B * M) = r + B * (t % M) := by
  conv_lhs => rw [← Nat.div_add_mod t M]
  have h1 : r + B * (M * (t / M) + t % M)
      = (r + B * (t % M)) + (B * M) * (t / M) := by ring
  rw [h1, Nat.add_mul_mod_self_left]
  exact Nat.mod_eq_of_lt (limb_sum_bound B M r (t % M) hB hM hr (Nat.mod_lt t hM))

theorem addLoop_toNat (b : Nat) (xs : List Nat) :
    ∀ (ys : List Nat) (c : Nat), xs.length = ys.length →
    (∀ l ∈ xs, l < 2 ^ b) → (∀ l ∈ ys, l < 2 ^ b) → c ≤ 1 →
    limbsToNat b ((addLoop b xs ys c).map Prod.fst)
      = (limbsToNat b xs + limbsToNat b ys + c) % 2 ^ (xs.length * b) := by
  induction xs with
  | nil =>
    intro ys c hlen _ _ hc
    cases ys with
    | nil => simp [addLoop, limbsToNat]; omega
    | cons y ys => simp at hlen
  | cons x xs ih =>
    intro ys c hlen hx hy hc
    cases ys with
    | nil => simp at hlen
    | cons y ys =>
      have hxb : x < 2 ^ b := hx x (by simp)
      have hyb : y < 2 ^ b := hy y (by simp)
      have hB : 0 < 2 ^ b := Nat.pos_pow_of_pos b (by omega)
      have hM : 0 < 2 ^ (xs.length * b) := Nat.pos_pow_of_pos _ (by omega)
      have hcarry : (x + y + c) / 2 ^ b ≤ 1 := by
        have h2 : x + y + c < 2 * 2 ^ b := by omega
        have h3 : (x + y + c) / 2 ^ b < 2 :=
          (Nat.div_lt_iff_lt_mul hB).mpr (by omega)
        omega
      simp only [addLoop, List.map_cons, limbsToNat, List.length_cons]
      rw [ih ys ((x + y + c) / 2 ^ b) (by simpa using hlen)
        (fun l hl => hx l (by simp [hl])) (fun l hl => hy l (by simp [hl])) hcarry]
      have hpow : 2 ^ ((xs.length + 1) * b) = 2 ^ b * 2 ^ (xs.length * b) := by
        rw [Nat.succ_mul, Nat.pow_add]
        ring
      rw [hpow]
      have hs := Nat.div_add_mod (x + y + c) (2 ^ b)
      have hexp : 2 ^ b * (limbsToNat b xs + limbsToNat b ys + (x + y + c) / 2 ^ b)
          = 2 ^ b * limbsToNat b xs + 2 ^ b * limbsToNat b ys
            + 2 ^ b * ((x + y + c) / 2 ^ b) := by ring
      have hrw : x + 2 ^ b * limbsToNat b xs + (y + 2 ^ b * limbsToNat b ys) + c
          = (x + y + c) % 2 ^ b
            + 2 ^ b * (limbsToNat b xs + limbsToNat b ys + (x + y + c) / 2 ^ b) := by
        rw [hexp]
        omega
      rw [hrw, mod_split (2 ^ b) (2 ^ (xs.length * b)) _ _ hB hM
        (Nat.mod_lt _ hB)]

theorem addLoop_carries_le_one (b : Nat) (xs : List Nat) :
    ∀ (ys : List Nat) (c : Nat),
    (∀ l ∈ xs, l < 2 ^ b) → (∀ l ∈ ys, l < 2 ^ b) → c ≤ 1 →
    ∀ e ∈ (addLoop b xs ys c).map Prod.snd, e ≤ 1 := by
  induction xs with
  | nil => intro ys c _ _ _ e he; simp [addLoop] at he
  | cons x xs ih =>
    intro ys c hx hy hc e he
    cases ys with
    | nil => simp [addLoop] at he
    | cons y ys =>
      have hxb : x < 2 ^ b := hx x (by simp)
      have hyb : y < 2 ^ b := hy y (by simp)
      have hB : 0 < 2 ^ b := Nat.pos_pow_of_pos b (by omega)
      have hcarry : (x + y + c) / 2 ^ b ≤ 1 := by
        have h3 : (x + y + c) / 2 ^ b < 2 :=
          (Nat.div_lt_iff_lt_mul hB).mpr (by omega)
        omega
      simp only [addLoop, List.map_cons, List.mem_cons] at he
      rcases he with he | he
      · omega
      · exact ih ys ((x + y + c) / 2 ^ b)
          (fun l hl => hx l (by simp [hl])) (fun l hl => hy l (by simp [hl]))
          hcarry e he

theorem addLoop_limbs_lt (b : Nat) (xs : List Nat) :
    ∀ (ys : List Nat) (c : Nat),
    ∀ e ∈ (addLoop b xs ys c).map Prod.fst, e < 2 ^ b := by
  induction xs with
  | nil => intro ys c e he; simp [addLoop] at he
  | cons x xs ih =>
    intro ys c e he
    cases ys with
    | nil => simp [addLoop] at he
    | cons y ys =>
      simp only [addLoop, List.map_cons, List.mem_cons] at he
      rcases he with he | he
      · rw [he]
        exact Nat.mod_lt _ (Nat.pos_pow_of_pos b (by omega))
      · exact ih ys _ e he

theorem addLoop_length (b : Nat) (xs : List Nat) :
    ∀ (ys : List Nat) (c : Nat), xs.length = ys.length →
    (addLoop b xs ys c).length = xs.length := by
  induction xs with
  | nil => intro ys c _; rfl
  | cons x xs ih =>
    intro ys c hlen
    cases ys with
    | nil => simp at hlen
    | cons y ys =>
      simp only [addLoop, List.length_cons]
      rw [ih ys _ (by simpa using hlen)]

theorem subLoop_spec (b : Nat) (xs : List Nat) :
    ∀ (ys : List Nat) (c : Nat), xs.length = ys.length →
    (∀ l ∈ xs, l < 2 ^ b) → (∀ l ∈ ys, l < 2 ^ b) → c ≤ 1 →
    ((limbsToNat b ((subLoop b xs ys c).map Prod.fst) : Int)
        ≡ (limbsToNat b xs : Int) - limbsToNat b ys - c
          [ZMOD ((2 : Int) ^ (xs.length * b))])
    ∧ limbsToNat b ((subLoop b xs ys c).map Prod.fst) < 2 ^ (xs.length * b) := by
  induction xs with
  | nil =>
    intro ys c hlen _ _ hc
    cases ys with
    | nil =>
      refine ⟨?_, ?_⟩
      · simpa [subLoop, limbsToNat] using Int.modEq_one
      · simp [subLoop, limbsToNat]
    | cons y ys => simp at hlen
  | cons x xs ih =>
    intro ys c hlen hx hy hc
    cases ys with
    | nil => simp at hlen
    | cons y ys =>
      have hxb : x < 2 ^ b := hx x (by simp)
      have hyb : y < 2 ^ b := hy y (by simp)
      have hB : 0 < 2 ^ b := Nat.pos_pow_of_pos b (by omega)
      have hM : 0 < 2 ^ (xs.length * b) := Nat.pos_pow_of_pos _ (by omega)
      have hpow : ((2 : Int) ^ ((xs.length + 1) * b))
          = 2 ^ b * 2 ^ (xs.length * b) := by
        rw [Nat.succ_mul, pow_add]
        ring
      have hpowN : (2 : Nat) ^ ((xs.length + 1) * b)
          = 2 ^ b * 2 ^ (xs.length * b) := by
        rw [Nat.succ_mul, Nat.pow_add]
        ring
      by_cases hcase : y + c ≤ x
      · obtain ⟨ihm, ihb⟩ := ih ys 0 (by simpa using hlen)
          (fun l hl => hx l (by simp [hl])) (fun l hl => hy l (by simp [hl]))
          (by omega)
        simp only [subLoop, if_pos hcase, List.map_cons, limbsToNat,
          List.length_cons]
        rw [hpow]
        refine ⟨?_, ?_⟩
        · have hmul := Int.ModEq.mul_left' (c := (2 : Int) ^ b) ihm
          have hadd := Int.ModEq.add_left ((x : Int) - (y + c)) hmul
          have heqL : ((x : Int) - (y + c))
                + 2 ^ b * (limbsToNat b ((subLoop b xs ys 0).map Prod.fst) : Int)
              = ((x - (y + c) + 2 ^ b * limbsToNat b ((subLoop b xs ys 0).map Prod.fst) : Nat) : Int) := by
            push_cast [hcase]
            ring
          have heqR : ((x : Int) - (y + c))
                + 2 ^ b * ((limbsToNat b xs : Int) - limbsToNat b ys - 0)
              = ((x + 2 ^ b * limbsToNat b xs : Nat) : Int)
                - ((y + 2 ^ b * limbsToNat b ys : Nat) : Int) - c := by
            push_cast
            ring
          rw [heqL] at hadd
          simp only [Nat.cast_zero, Nat.cast_one] at hadd
          rw [heqR] at hadd
          exact hadd
        · rw [hpowN]
          have hz : x - (y + c) < 2 ^ b := by omega
          exact limb_sum_bound (2 ^ b) (2 ^ (xs.length * b)) _ _ hB hM hz ihb
      · obtain ⟨ihm, ihb⟩ := ih ys 1 (by simpa using hlen)
          (fun l hl => hx l (by simp [hl])) (fun l hl => hy l (by simp [hl]))
          (by omega)
        simp only [subLoop, if_neg hcase, List.map_cons, limbsToNat,
          List.length_cons]
        rw [hpow]
        refine ⟨?_, ?_⟩
        · have hmul := Int.ModEq.mul_left' (c := (2 : Int) ^ b) ihm
          have hadd := Int.ModEq.add_left ((x : Int) + 2 ^ b - (y + c)) hmul
          have heqL : ((x : Int) + 2 ^ b - (y + c))
                + 2 ^ b * (limbsToNat b ((subLoop b xs ys 1).map Prod.fst) : Int)
              = ((x + 2 ^ b - (y + c) + 2 ^ b * limbsToNat b ((subLoop b xs ys 1).map Prod.fst) : Nat) : Int) := by
            have hle : y + c ≤ x + 2 ^ b := by omega
            push_cast [hle]
            ring
          have heqR : ((x : Int) + 2 ^ b - (y + c))
                + 2 ^ b * ((limbsToNat b xs : Int) - limbsToNat b ys - 1)
              = ((x + 2 ^ b * limbsToNat b xs : Nat) : Int)
                - ((y + 2 ^ b * limbsToNat b ys : Nat) : Int) - c := by
            push_cast
            ring
          rw [heqL] at hadd
          simp only [Nat.cast_zero, Nat.cast_one] at hadd
          rw [heqR] at hadd
          exact hadd
        · rw [hpowN]
          have hz : x + 2 ^ b - (y + c) < 2 ^ b := by omega
          exact limb_sum_bound (2 ^ b) (2 ^ (xs.length * b)) _ _ hB hM hz ihb

theorem subLoop_borrows_le_one (b : Nat) (xs : List Nat) :
    ∀ (ys : List Nat) (c : Nat),
    ∀ e ∈ (subLoop b xs ys c).map Prod.snd, e ≤ 1 := by
  induction xs with
  | nil => intro ys c e he; simp [subLoop] at he
  | cons x xs ih =>
    intro ys c e he
    cases ys with
    | nil => simp [subLoop] at he
    | cons y ys =>
      simp only [subLoop] at he
      by_cases hcase : y + c ≤ x
      · rw [if_pos hcase] at he
        simp only [List.map_cons, List.mem_cons] at he
        rcases he with he | he
        · omega
        · exact ih ys 0 e he
      · rw [if_neg hcase] at he
        simp only [List.map_cons, List.mem_cons] at he
        rcases he with he | he
        · omega
        · exact ih ys 1 e he

theorem zipWith_getD_of_lt {β : Type _} (f : β → β → β) (d : β) :
    ∀ (x y : List β) (i : Nat), i < x.length → i < y.length →
    (List.zipWith f x y).getD i d = f (x.getD i d) (y.getD i d) := by
  intro x
  induction x with
  | nil => intro y i hi _; simp at hi
  | cons a x ih =>
    intro y i hix hiy
    cases y with
    | nil => simp at hiy
    | cons c y =>
      cases i with
      | zero => rfl
      | succ i =>
        simpa using ih y i (by simpa using hix) (by simpa using hiy)

theorem popN_sufficient {F : Type} :
    ∀ (n : Nat) (s : List F), n ≤ s.length →
    popN n s = some (s.take n, s.drop n) := by
  intro n
  induction n with
  | zero => intro s _; simp [popN]
  | succ n ih =>
    intro s hs
    cases s with
    | nil => simp at hs
    | cons a s =>
      simp only [popN, popFront, Option.some_bind]
      rw [ih s (by simpa using hs)]
      rfl

/-! ### Claims -/

/-- Claim C1: for address spaces `s ≠ 0`, power-of-two window lengths and
(in-range) windows, writing `v` at `(s, p)` then reading the same window
returns exactly `v` (a shorter power-of-two read returns the prefix);
reading a window whose cells were never written returns all zeros; `write`
returns the previous contents of the window, zero-filled for absent cells;
and a partial overwrite of `u` at offset `j` inside a previously written
window followed by a whole-window read returns the new values at the
overwritten offsets and the old values elsewhere. -/
theorem claim_c1 {F : Type} [PrimeField32 F] (m : Memory F) (s p j N' : Nat)
    (v u : List F)
    (hs : s ≠ 0)
    (hv : ∃ k, v.length = 2 ^ k) (hvN : v.length ≤ 2 ^ 32)
    (hu : ∃ k, u.length = 2 ^ k) (hju : j + u.length ≤ v.length)
    (hN' : ∃ k, N' = 2 ^ k) (hN'le : N' ≤ v.length) :
    m.write s p v
        = .ok ((m.log.length, m.rangeArray s p v.length), m.writeRes s p v)
    ∧ (m.writeRes s p v).read s p v.length
        = .ok ((m.log.length + 1, v), (m.writeRes s p v).readRes s p v.length)
    ∧ (m.writeRes s p v).read s p N'
        = .ok ((m.log.length + 1, v.take N'), (m.writeRes s p v).readRes s p N')
    ∧ ((∀ i, i < v.length → m.data (s, addr32 p i) = none) →
        m.read s p v.length
          = .ok ((m.log.length, List.replicate v.length (0 : F)),
                 m.readRes s p v.length))
    ∧ ((m.writeRes s p v).writeRes s (p + j) u).read s p v.length
        = .ok ((m.log.length + 2, mixWindow v u j),
               ((m.writeRes s p v).writeRes s (p + j) u).readRes s p v.length) := by
  have hvP : isPow2 v.length = true := (isPow2_iff _).mpr hv
  have huP : isPow2 u.length = true := (isPow2_iff _).mpr hu
  have hN'P : isPow2 N' = true := (isPow2_iff _).mpr hN'
  refine ⟨?_, ?_, ?_, ?_, ?_⟩
  · rw [Memory.write_ok m s p v hvP, Memory.write_prev m s p v hvN]
  · rw [Memory.read_ok_nonzero (m.writeRes s p v) s p v.length hs hvP,
      Memory.rangeArray_writeRes m s p v hvN]
    simp [Memory.writeRes]
  · rw [Memory.read_ok_nonzero (m.writeRes s p v) s p N' hs hN'P,
      Memory.rangeArray_writeRes_take m s p v hvN N' hN'le]
    simp [Memory.writeRes]
  · intro hclean
    rw [Memory.read_ok_nonzero m s p v.length hs hvP,
      Memory.rangeArray_zeros m s p v.length hclean]
  · rw [Memory.read_ok_nonzero _ s p v.length hs hvP,
      Memory.rangeArray_two_writes m s p j v u hvN hju]
    simp [Memory.writeRes]

/-- Witness for C1: the end-to-end scenario of the repository's own unit
test (`test_write_read`), instantiated at address space 1, pointer 0. -/
theorem claim_c1_witness :
    (Memory.new BabyBear).write 1 0 [1, 2, 3, 4]
        = .ok ((0, (Memory.new BabyBear).rangeArray 1 0 4),
               (Memory.new BabyBear).writeRes 1 0 [1, 2, 3, 4])
    ∧ ((Memory.new BabyBear).writeRes 1 0 [1, 2, 3, 4]).read 1 0 4
        = .ok ((1, [1, 2, 3, 4]),
               ((Memory.new BabyBear).writeRes 1 0 [1, 2, 3, 4]).readRes 1 0 4)
    ∧ ((Memory.new BabyBear).writeRes 1 0 [1, 2, 3, 4]).read 1 0 2
        = .ok ((1, ([1, 2, 3, 4] : List BabyBear).take 2),
               ((Memory.new BabyBear).writeRes 1 0 [1, 2, 3, 4]).readRes 1 0 2)
    ∧ ((∀ i, i < 4 → (Memory.new BabyBear).data (1, addr32 0 i) = none) →
        (Memory.new BabyBear).read 1 0 4
          = .ok ((0, List.replicate 4 (0 : BabyBear)),
                 (Memory.new BabyBear).readRes 1 0 4))
    ∧ (((Memory.new BabyBear).writeRes 1 0 [1, 2, 3, 4]).writeRes 1 (0 + 2) [100]).read 1 0 4
        = .ok ((2, mixWindow [1, 2, 3, 4] [100] 2),
               (((Memory.new BabyBear).writeRes 1 0 [1, 2, 3, 4]).writeRes 1 (0 + 2) [100]).readRes 1 0 4) :=
  claim_c1 (Memory.new BabyBear) 1 0 2 2 [1, 2, 3, 4] [100]
    (by decide) ⟨2, rfl⟩ (by decide) ⟨0, rfl⟩ (by decide) ⟨1, rfl⟩ (by decide)

/-- Claim C2: every successful read/write appends exactly its one log entry
and advances the timestamp by exactly 1; `increment_timestamp_by d` appends
exactly one `IncrementTimestampBy` entry and advances the timestamp by `d`;
a sequence of `k` successful read/write operations advances the timestamp by
exactly `k`; and the timestamp is non-decreasing across any successful
operation sequence. -/
theorem claim_c2 {F : Type} [PrimeField32 F]
    (m mr mw mi mk mo : Memory F) (s p N d : Nat) (v : List F)
    (accOps ops : List (MemOp F))
    (hr : applyOp m (MemOp.read s p N) = some mr)
    (hw : applyOp m (MemOp.write s p v) = some mw)
    (hi : applyOp m (MemOp.incr d) = some mi)
    (hacc : ∀ op ∈ accOps, MemOp.isAccess op = true)
    (hk : applyOps m accOps = some mk)
    (ho : applyOps m ops = some mo) :
    mr.log = m.log ++ [MemoryLogEntry.read s p N]
    ∧ mr.timestamp = m.timestamp + 1
    ∧ mw.log = m.log ++ [MemoryLogEntry.write s p v]
    ∧ mw.timestamp = m.timestamp + 1
    ∧ mi.log = m.log ++ [MemoryLogEntry.incrementTimestampBy d]
    ∧ mi.timestamp = m.timestamp + d
    ∧ mk.timestamp = m.timestamp + accOps.length
    ∧ m.timestamp ≤ mo.timestamp := by
  rw [applyOp_read_some hr, applyOp_write_some hw, applyOp_incr_some hi]
  exact ⟨rfl, rfl, rfl, rfl, rfl, rfl,
    applyOps_access_timestamp accOps m mk hacc hk,
    applyOps_timestamp_mono ops m mo ho⟩

/-- Witness for C2: one read, one write, one increment by 5, a one-access
sequence and a one-increment sequence, from a fresh memory over BabyBear. -/
theorem claim_c2_witness :
    ((Memory.new BabyBear).readRes 1 0 1).log = [] ++ [MemoryLogEntry.read 1 0 1]
    ∧ ((Memory.new BabyBear).readRes 1 0 1).timestamp = (Memory.new BabyBear).timestamp + 1
    ∧ ((Memory.new BabyBear).writeRes 1 0 [3]).log = [] ++ [MemoryLogEntry.write 1 0 [3]]
    ∧ ((Memory.new BabyBear).writeRes 1 0 [3]).timestamp = (Memory.new BabyBear).timestamp + 1
    ∧ ((Memory.new BabyBear).incrementTimestampBy 5).log
        = [] ++ [MemoryLogEntry.incrementTimestampBy 5]
    ∧ ((Memory.new BabyBear).incrementTimestampBy 5).timestamp
        = (Memory.new BabyBear).timestamp + 5
    ∧ ((Memory.new BabyBear).readRes 1 0 1).timestamp
        = (Memory.new BabyBear).timestamp + ([MemOp.read 1 0 1] : List (MemOp BabyBear)).length
    ∧ (Memory.new BabyBear).timestamp
        ≤ ((Memory.new BabyBear).incrementTimestampBy 5).timestamp :=
  claim_c2 (Memory.new BabyBear)
    ((Memory.new BabyBear).readRes 1 0 1)
    ((Memory.new BabyBear).writeRes 1 0 [3])
    ((Memory.new BabyBear).incrementTimestampBy 5)
    ((Memory.new BabyBear).readRes 1 0 1)
    ((Memory.new BabyBear).incrementTimestampBy 5)
    1 0 1 5 [3] [MemOp.read 1 0 1] [MemOp.incr 5]
    rfl rfl rfl (by decide) rfl rfl

/-- Claim C3: reading length 1 from address space 0 at pointer `p` returns
the field encoding of `p` itself, regardless of the memory contents; reading
any length `N > 1` from address space 0 hits a fatal assertion (for a
power-of-two `N` this is the dedicated "cannot batch read from address
space 0" assertion, which fires after the log push). -/
theorem claim_c3 {F : Type} [PrimeField32 F] (m : Memory F) (p N : Nat)
    (hN : 1 < N) :
    m.read 0 p 1
        = .ok ((m.log.length, [PrimeField32.fromCanonicalU32 p]), m.readRes 0 p 1)
    ∧ isOkE (m.read 0 p N) = false
    ∧ ((∃ k, N = 2 ^ k) →
        m.read 0 p N
          = .error ⟨m.data, m.log ++ [MemoryLogEntry.read 0 p N], m.timestamp⟩) := by
  refine ⟨Memory.read_ok_zero m p, ?_, ?_⟩
  · cases hp : isPow2 N with
    | false => rw [Memory.read_err_notpow2 m 0 p N hp]; rfl
    | true => rw [Memory.read_err_zero m p N hp (by omega)]; rfl
  · intro hpw
    exact Memory.read_err_zero m p N ((isPow2_iff N).mpr hpw) (by omega)

/-- Witness for C3: a memory that stores 42 at `(0, 5)`; the length-1 read
at pointer 5 still returns the encoding of 5, and a length-2 read asserts. -/
theorem claim_c3_witness :
    (⟨fun a => if a = (0, 5) then some (42 : BabyBear) else none, [], 1⟩ :
        Memory BabyBear).read 0 5 1
        = .ok ((0, [PrimeField32.fromCanonicalU32 5]),
               (⟨fun a => if a = (0, 5) then some (42 : BabyBear) else none, [], 1⟩ :
                 Memory BabyBear).readRes 0 5 1)
    ∧ isOkE ((⟨fun a => if a = (0, 5) then some (42 : BabyBear) else none, [], 1⟩ :
        Memory BabyBear).read 0 5 2) = false
    ∧ ((∃ k, 2 = 2 ^ k) →
        (⟨fun a => if a = (0, 5) then some (42 : BabyBear) else none, [], 1⟩ :
            Memory BabyBear).read 0 5 2
          = .error ⟨(⟨fun a => if a = (0, 5) then some (42 : BabyBear) else none, [], 1⟩ :
                Memory BabyBear).data,
              [] ++ [MemoryLogEntry.read 0 5 2], 1⟩) :=
  claim_c3 ⟨fun a => if a = (0, 5) then some (42 : BabyBear) else none, [], 1⟩
    5 2 (by decide)

/-- Claim C4: `tree_from_memory` over an entirely empty memory image of
overall height `h` equals `construct_uniform(h, hash(zero-chunk))`; and for
any chunk partition, any index range `[lo, lo + 2^h)` containing no
populated chunk yields exactly the uniform zero subtree of height `h`, so
in particular its hash equals the uniform tree's hash. -/
theorem claim_c4 {F : Type} [Zero F] (hasher : Hasher F)
    (chunk overallHeight h lo : Nat) (labelToIndex : Nat × Nat → Nat)
    (mem : List (Nat × List F))
    (hemp : ∀ kv ∈ mem, ¬ (lo ≤ kv.1 ∧ kv.1 < lo + 2 ^ h)) :
    MemoryNode.treeFromMemory labelToIndex overallHeight chunk
        ([] : List ((Nat × Nat) × F)) hasher
      = MemoryNode.constructUniform overallHeight
          (hasher.hash (List.replicate chunk 0)) hasher
    ∧ MemoryNode.fromMemory mem h lo hasher chunk
        = MemoryNode.constructUniform h
            (hasher.hash (List.replicate chunk 0)) hasher
    ∧ (MemoryNode.fromMemory mem h lo hasher chunk).hash
        = (MemoryNode.constructUniform h
            (hasher.hash (List.replicate chunk 0)) hasher).hash := by
  have h2 := fromMemory_uniform mem h lo hasher chunk hemp
  refine ⟨?_, h2, by rw [h2]⟩
  unfold MemoryNode.treeFromMemory
  exact fromMemory_uniform [] overallHeight 0 hasher chunk (by simp)

/-- Witness for C4: a one-chunk partition populated only at index 5, with a
concrete hasher; the empty half-range `[0, 2)` yields the uniform tree. -/
theorem claim_c4_witness :
    MemoryNode.treeFromMemory (fun l => l.2) 2 1 ([] : List ((Nat × Nat) × BabyBear))
        (⟨fun c => c, fun a b => a ++ b⟩ : Hasher BabyBear)
      = MemoryNode.constructUniform 2
          ((⟨fun c => c, fun a b => a ++ b⟩ : Hasher BabyBear).hash
            (List.replicate 1 0))
          ⟨fun c => c, fun a b => a ++ b⟩
    ∧ MemoryNode.fromMemory [(5, [(3 : BabyBear)])] 1 0
          ⟨fun c => c, fun a b => a ++ b⟩ 1
        = MemoryNode.constructUniform 1
            ((⟨fun c => c, fun a b => a ++ b⟩ : Hasher BabyBear).hash
              (List.replicate 1 0))
            ⟨fun c => c, fun a b => a ++ b⟩
    ∧ (MemoryNode.fromMemory [(5, [(3 : BabyBear)])] 1 0
          ⟨fun c => c, fun a b => a ++ b⟩ 1).hash
        = (MemoryNode.constructUniform 1
            ((⟨fun c => c, fun a b => a ++ b⟩ : Hasher BabyBear).hash
              (List.replicate 1 0))
            ⟨fun c => c, fun a b => a ++ b⟩).hash :=
  claim_c4 ⟨fun c => c, fun a b => a ++ b⟩ 1 2 1 0 (fun l => l.2)
    [(5, [(3 : BabyBear)])] (by decide)

/-- Counterexample to C6 as stated: `hash()` on a leaf returns the stored
values unchanged, not the hasher's hash of those values — with the hasher
that adds 1 to every element, `Leaf{[0]}.hash() = [0] ≠ [1] = hash([0])`. -/
theorem claim_c6_counterexample :
    ¬ ((MemoryNode.leaf ([0] : List BabyBear)).hash
        = (⟨fun c => c.map (fun x => x + 1), fun a _ => a⟩ :
            Hasher BabyBear).hash [0]) := by
  decide

/-- Claim C6 (amended): `hash()` returns the stored field unchanged for both
variants — the stored `values` for a `Leaf` and the stored compression
result for a `NonLeaf`; leaves built by `from_memory` store the hasher's
hash of the raw (zero-defaulted) chunk content, so for them the summary is
the hash of the chunk's raw values. -/
theorem claim_c6_amended {F : Type} [Zero F] (v hsh : List F)
    (l r : MemoryNode F) (mem : List (Nat × List F)) (lo chunk : Nat)
    (hasher : Hasher F) :
    (MemoryNode.leaf v).hash = v
    ∧ (MemoryNode.nonLeaf hsh l r).hash = hsh
    ∧ MemoryNode.fromMemory mem 0 lo hasher chunk
        = MemoryNode.leaf
            (hasher.hash ((lookupA mem lo).getD (List.replicate chunk 0))) :=
  ⟨rfl, rfl, rfl⟩

/-- Claim C5: `solve_alu` computes ADD as the little-endian limb
decomposition of `(x + y) mod 2^(NUM_LIMBS·LIMB_BITS)` with boolean
per-limb carries, SUB as the decomposition of `(x - y) mod
2^(NUM_LIMBS·LIMB_BITS)` with boolean per-limb borrows, and XOR/OR/AND
limbwise; with `NUM_LIMBS = 4, LIMB_BITS = 8` the concrete examples of the
spec hold. -/
theorem claim_c5 (b : Nat) (x y : List Nat) (hlen : x.length = y.length)
    (hx : ∀ l ∈ x, l < 2 ^ b) (hy : ∀ l ∈ y, l < 2 ^ b) :
    limbsToNat b (solve_alu b AluOpcode.ADD x y)
        = (limbsToNat b x + limbsToNat b y) % 2 ^ (x.length * b)
    ∧ (∀ e ∈ solve_alu b AluOpcode.ADD x y, e < 2 ^ b)
    ∧ (solve_alu b AluOpcode.ADD x y).length = x.length
    ∧ (∀ e ∈ addCarries b x y, e ≤ 1)
    ∧ ((limbsToNat b (solve_alu b AluOpcode.SUB x y) : Int)
        = ((limbsToNat b x : Int) - limbsToNat b y) % ((2 : Int) ^ (x.length * b)))
    ∧ (∀ e ∈ subBorrows b x y, e ≤ 1)
    ∧ (∀ i, i < x.length →
        (solve_alu b AluOpcode.XOR x y).getD i 0 = (x.getD i 0) ^^^ (y.getD i 0))
    ∧ (∀ i, i < x.length →
        (solve_alu b AluOpcode.OR x y).getD i 0 = (x.getD i 0) ||| (y.getD i 0))
    ∧ (∀ i, i < x.length →
        (solve_alu b AluOpcode.AND x y).getD i 0 = (x.getD i 0) &&& (y.getD i 0))
    ∧ solve_alu 8 AluOpcode.ADD [255, 0, 0, 0] [1, 0, 0, 0] = [0, 1, 0, 0]
    ∧ solve_alu 8 AluOpcode.SUB [0, 1, 0, 0] [1, 0, 0, 0] = [255, 0, 0, 0]
    ∧ solve_alu 8 AluOpcode.XOR [10, 0, 0, 0] [6, 0, 0, 0] = [12, 0, 0, 0]
    ∧ solve_alu 8 AluOpcode.OR [10, 0, 0, 0] [6, 0, 0, 0] = [14, 0, 0, 0]
    ∧ solve_alu 8 AluOpcode.AND [10, 0, 0, 0] [6, 0, 0, 0] = [2, 0, 0, 0] := by
  refine ⟨?_, ?_, ?_, ?_, ?_, ?_, ?_, ?_, ?_,
    by decide, by decide, by decide, by decide, by decide⟩
  · exact addLoop_toNat b x y 0 hlen hx hy (by omega)
  · exact addLoop_limbs_lt b x y 0
  · show ((addLoop b x y 0).map Prod.fst).length = x.length
    rw [List.length_map]
    exact addLoop_length b x y 0 hlen
  · exact addLoop_carries_le_one b x y 0 hx hy (by omega)
  · obtain ⟨hm, hb⟩ := subLoop_spec b x y 0 hlen hx hy (by omega)
    have h0 : ((limbsToNat b x : Int) - limbsToNat b y - ((0 : Nat) : Int))
        = (limbsToNat b x : Int) - limbsToNat b y := by
      push_cast
      ring
    rw [h0] at hm
    unfold Int.ModEq at hm
    show ((limbsToNat b ((subLoop b x y 0).map Prod.fst) : Nat) : Int)
        = ((limbsToNat b x : Int) - limbsToNat b y) % ((2 : Int) ^ (x.length * b))
    rw [← hm]
    refine (Int.emod_eq_of_lt (by positivity) ?_).symm
    have : ((2 : Int) ^ (x.length * b)) = ((2 ^ (x.length * b) : Nat) : Int) := by
      push_cast
      ring
    rw [this]
    exact_mod_cast hb
  · exact subLoop_borrows_le_one b x y 0
  · intro i hi
    exact zipWith_getD_of_lt _ 0 x y i hi (hlen ▸ hi)
  · intro i hi
    exact zipWith_getD_of_lt _ 0 x y i hi (hlen ▸ hi)
  · intro i hi
    exact zipWith_getD_of_lt _ 0 x y i hi (hlen ▸ hi)

/-- Witness for C5 at `LIMB_BITS = 8`, `x = [255,0,0,0]`, `y = [1,0,0,0]`
(the ADD example of the spec). -/
theorem claim_c5_witness :
    limbsToNat 8 (solve_alu 8 AluOpcode.ADD [255, 0, 0, 0] [1, 0, 0, 0])
        = (limbsToNat 8 [255, 0, 0, 0] + limbsToNat 8 [1, 0, 0, 0]) % 2 ^ (4 * 8)
    ∧ (∀ e ∈ solve_alu 8 AluOpcode.ADD [255, 0, 0, 0] [1, 0, 0, 0], e < 2 ^ 8)
    ∧ (solve_alu 8 AluOpcode.ADD [255, 0, 0, 0] [1, 0, 0, 0]).length = 4
    ∧ (∀ e ∈ addCarries 8 [255, 0, 0, 0] [1, 0, 0, 0], e ≤ 1)
    ∧ ((limbsToNat 8 (solve_alu 8 AluOpcode.SUB [255, 0, 0, 0] [1, 0, 0, 0]) : Int)
        = ((limbsToNat 8 [255, 0, 0, 0] : Int) - limbsToNat 8 [1, 0, 0, 0])
            % ((2 : Int) ^ (4 * 8)))
    ∧ (∀ e ∈ subBorrows 8 [255, 0, 0, 0] [1, 0, 0, 0], e ≤ 1)
    ∧ (∀ i, i < 4 →
        (solve_alu 8 AluOpcode.XOR [255, 0, 0, 0] [1, 0, 0, 0]).getD i 0
          = (([255, 0, 0, 0] : List Nat).getD i 0) ^^^ (([1, 0, 0, 0] : List Nat).getD i 0))
    ∧ (∀ i, i < 4 →
        (solve_alu 8 AluOpcode.OR [255, 0, 0, 0] [1, 0, 0, 0]).getD i 0
          = (([255, 0, 0, 0] : List Nat).getD i 0) ||| (([1, 0, 0, 0] : List Nat).getD i 0))
    ∧ (∀ i, i < 4 →
        (solve_alu 8 AluOpcode.AND [255, 0, 0, 0] [1, 0, 0, 0]).getD i 0
          = (([255, 0, 0, 0] : List Nat).getD i 0) &&& (([1, 0, 0, 0] : List Nat).getD i 0))
    ∧ solve_alu 8 AluOpcode.ADD [255, 0, 0, 0] [1, 0, 0, 0] = [0, 1, 0, 0]
    ∧ solve_alu 8 AluOpcode.SUB [0, 1, 0, 0] [1, 0, 0, 0] = [255, 0, 0, 0]
    ∧ solve_alu 8 AluOpcode.XOR [10, 0, 0, 0] [6, 0, 0, 0] = [12, 0, 0, 0]
    ∧ solve_alu 8 AluOpcode.OR [10, 0, 0, 0] [6, 0, 0, 0] = [14, 0, 0, 0]
    ∧ solve_alu 8 AluOpcode.AND [10, 0, 0, 0] [6, 0, 0, 0] = [2, 0, 0, 0] :=
  claim_c5 8 [255, 0, 0, 0] [1, 0, 0, 0] rfl (by decide) (by decide)

/-- Claim C7: when the hint stream holds fewer field elements than the
hint-store opcode demands, `execute_instruction` returns (without panicking)
the distinguishable error `HintOutOfBounds` carrying exactly the program
counter of the instruction; with enough elements it succeeds, popping
exactly `numLimbs` elements off the front. -/
theorem claim_c7 {F : Type} (hintStream : List F) (from_pc numLimbs : Nat)
    (hlt : hintStream.length < numLimbs) :
    Rv32HintStoreCore.execute_instruction hintStream from_pc numLimbs
        = some (.error (ExecutionError.hintOutOfBounds from_pc))
    ∧ (∀ t : List F, numLimbs ≤ t.length →
        Rv32HintStoreCore.execute_instruction t from_pc numLimbs
          = some (.ok (t.take numLimbs, t.drop numLimbs))) := by
  refine ⟨?_, ?_⟩
  · unfold Rv32HintStoreCore.execute_instruction
    rw [if_pos hlt]
  · intro t ht
    unfold Rv32HintStoreCore.execute_instruction
    rw [if_neg (by omega), popN_sufficient numLimbs t ht]
    rfl

/-- Witness for C7: a three-element hint stream cannot satisfy a demand for
4 limbs at pc = 77. -/
theorem claim_c7_witness :
    Rv32HintStoreCore.execute_instruction ([1, 2, 3] : List BabyBear) 77 4
        = some (.error (ExecutionError.hintOutOfBounds 77))
    ∧ (∀ t : List BabyBear, 4 ≤ t.length →
        Rv32HintStoreCore.execute_instruction t 77 4
          = some (.ok (t.take 4, t.drop 4))) :=
  claim_c7 [1, 2, 3] 77 4 (by decide)

/-- Counterexample to C8 as stated: the claim's final clause says read does
not assert for any power-of-two length in every address space, but a
length-2 read from address space 0 hits the batch-read assertion. -/
theorem claim_c8_counterexample :
    isOkE ((Memory.new BabyBear).read 0 0 2) = false := by
  rfl

/-- Claim C8 (amended): for every non-power-of-two length (including
0, 3, 5, 6, 7) both read and write fail the power-of-two assertion before
mutating memory, log or timestamp (the state at the assertion is the
original memory); for every power-of-two length, write never asserts, and
read asserts only through the separate address-space-0 batch restriction
(address space 0 with length > 1). -/
theorem claim_c8 {F : Type} [PrimeField32 F] (m : Memory F) (s p N M : Nat)
    (v u : List F)
    (hN : ∀ k, N ≠ 2 ^ k) (hv : ∀ k, v.length ≠ 2 ^ k)
    (hM : ∃ k, M = 2 ^ k) (hMs : s ≠ 0 ∨ M = 1)
    (hu : ∃ k, u.length = 2 ^ k) :
    m.read s p N = .error m
    ∧ m.write s p v = .error m
    ∧ isOkE (m.write s p u) = true
    ∧ isOkE (m.read s p M) = true := by
  refine ⟨Memory.read_err_notpow2 m s p N (isPow2_false_of_not_pow N hN),
    Memory.write_err m s p v (isPow2_false_of_not_pow _ hv), ?_, ?_⟩
  · rw [Memory.write_ok m s p u ((isPow2_iff _).mpr hu)]
    rfl
  · by_cases hs0 : s = 0
    · rcases hMs with hs | hM1
      · exact absurd hs0 hs
      · rw [hs0, hM1, Memory.read_ok_zero m p]
        rfl
    · rw [Memory.read_ok_nonzero m s p M hs0 ((isPow2_iff _).mpr hM)]
      rfl

/-- Witness for C8 (amended): length 3 asserts, lengths 2 succeed, at
address space 1. -/
theorem claim_c8_witness :
    (Memory.new BabyBear).read 1 0 3 = .error (Memory.new BabyBear)
    ∧ (Memory.new BabyBear).write 1 0 [5, 6, 7] = .error (Memory.new BabyBear)
    ∧ isOkE ((Memory.new BabyBear).write 1 0 [7, 8]) = true
    ∧ isOkE ((Memory.new BabyBear).read 1 0 2) = true :=
  claim_c8 (Memory.new BabyBear) 1 0 3 2 [5, 6, 7] [7, 8]
    (not_pow_of_isPow2_false 3 (by decide))
    (not_pow_of_isPow2_false _ (by decide))
    ⟨1, rfl⟩ (Or.inl (by decide)) ⟨1, rfl⟩

/-- Claim C9: for any memory state reached from `Memory::new` by a sequence
of successful operations, `Memory::get(s, p)` returns the last value written
at `(s, p)` (zero if no write ever covered it), and a `get` call — made
through a shared reference — hands the receiver back unchanged: it touches
neither the data map, the log, nor the timestamp. -/
theorem claim_c9 {F : Type} [PrimeField32 F] (ops : List (MemOp F))
    (m : Memory F) (s p : Nat)
    (h : applyOps (Memory.new F) ops = some m) :
    m.get s p = (lastWritten s p ops).getD 0
    ∧ m.getOp s p = (m.get s p, m) := by
  refine ⟨?_, rfl⟩
  unfold Memory.get
  rw [applyOps_lastWritten ops (Memory.new F) m h s p]
  cases hlw : lastWritten s p ops with
  | some x => rfl
  | none => rfl

/-- Witness for C9: write `[5, 7]` at `(1, 0)` then read; `get 1 1`
returns 7, the last (and only) value written at that cell. -/
theorem claim_c9_witness :
    (((Memory.new BabyBear).writeRes 1 0 [5, 7]).readRes 1 0 2).get 1 1
        = (lastWritten 1 1 [MemOp.write 1 0 [5, 7], MemOp.read 1 0 2]).getD 0
    ∧ (((Memory.new BabyBear).writeRes 1 0 [5, 7]).readRes 1 0 2).getOp 1 1
        = ((((Memory.new BabyBear).writeRes 1 0 [5, 7]).readRes 1 0 2).get 1 1,
           ((Memory.new BabyBear).writeRes 1 0 [5, 7]).readRes 1 0 2) :=
  claim_c9 [MemOp.write 1 0 [5, 7], MemOp.read 1 0 2]
    (((Memory.new BabyBear).writeRes 1 0 [5, 7]).readRes 1 0 2) 1 1 rfl

/-- Claim C10: a write into the reserved immediate address space 0 succeeds
without any assertion (the address-space-0 restriction applies only to
reads): it stores the values in the backing map, appends one `Write` log
entry, advances the timestamp by 1, and a subsequent length-1 read from
address space 0 still ignores the stored data and returns the pointer
encoding. -/
theorem claim_c10 {F : Type} [PrimeField32 F] (m : Memory F) (p : Nat)
    (v : List F)
    (hv : ∃ k, v.length = 2 ^ k) (hvN : v.length ≤ 2 ^ 32) :
    m.write 0 p v
        = .ok ((m.log.length, m.rangeArray 0 p v.length), m.writeRes 0 p v)
    ∧ (m.writeRes 0 p v).log = m.log ++ [MemoryLogEntry.write 0 p v]
    ∧ (m.writeRes 0 p v).timestamp = m.timestamp + 1
    ∧ (∀ i, i < v.length →
        (m.writeRes 0 p v).data (0, addr32 p i) = some (v.getD i 0))
    ∧ (m.writeRes 0 p v).read 0 p 1
        = .ok ((m.log.length + 1, [PrimeField32.fromCanonicalU32 p]),
               (m.writeRes 0 p v).readRes 0 p 1) := by
  have hvP : isPow2 v.length = true := (isPow2_iff _).mpr hv
  refine ⟨?_, rfl, rfl, ?_, ?_⟩
  · rw [Memory.write_ok m 0 p v hvP, Memory.write_prev m 0 p v hvN]
  · intro i hi
    exact Memory.writeRes_data_hit m 0 p v hvN i hi
  · rw [Memory.read_ok_zero (m.writeRes 0 p v) p]
    simp [Memory.writeRes]

/-- Witness for C10: writing `[9, 8]` at `(0, 3)` succeeds; the follow-up
length-1 read returns the encoding of pointer 3, not the stored 9. -/
theorem claim_c10_witness :
    (Memory.new BabyBear).write 0 3 [9, 8]
        = .ok ((0, (Memory.new BabyBear).rangeArray 0 3 2),
               (Memory.new BabyBear).writeRes 0 3 [9, 8])
    ∧ ((Memory.new BabyBear).writeRes 0 3 [9, 8]).log
        = [] ++ [MemoryLogEntry.write 0 3 [9, 8]]
    ∧ ((Memory.new BabyBear).writeRes 0 3 [9, 8]).timestamp
        = (Memory.new BabyBear).timestamp + 1
    ∧ (∀ i, i < 2 →
        ((Memory.new BabyBear).writeRes 0 3 [9, 8]).data (0, addr32 3 i)
          = some (([9, 8] : List BabyBear).getD i 0))
    ∧ ((Memory.new BabyBear).writeRes 0 3 [9, 8]).read 0 3 1
        = .ok ((1, [PrimeField32.fromCanonicalU32 3]),
               ((Memory.new BabyBear).writeRes 0 3 [9, 8]).readRes 0 3 1) :=
  claim_c10 (Memory.new BabyBear) 3 [9, 8] ⟨1, rfl⟩ (by decide)
